import Mathlib

/-!
Shallow embedding of the einstr expression engine
(`tensorbackends/utils/einstr.py`): index-notation parsing, ellipsis
matching, operation-family validation, expression splitting and output
shape resolution, together with theorems settling the specification
claims about it.
-/

namespace Einstr

/-- An entry of a term's index sequence: either the ellipsis placeholder
(`Ellipsis` in the source) or a concrete small-integer index id. -/
inductive Idx where
  | ell : Idx
  | id : Nat → Idx
deriving DecidableEq, Inhabited

/-- `InputTerm` of the source: an ordered sequence of index entries plus
the originating subscript text. -/
structure InputTerm where
  indices : List Idx
  source : String
deriving DecidableEq, Inhabited

/-- `OutputTerm` of the source: index entries, fusing groups (start, end)
and the originating subscript text. -/
structure OutputTerm where
  indices : List Idx
  fusing : List (Nat × Nat)
  source : String
deriving DecidableEq, Inhabited

/-- `Expression` of the source: input terms, output terms and the source
text. -/
structure Expression where
  inputs : List InputTerm
  outputs : List OutputTerm
  source : String
deriving DecidableEq, Inhabited

/-- The concrete id carried by an entry, if any. -/
def Idx.toNat? : Idx → Option Nat
  | .ell => none
  | .id n => some n

/-- All index entries of all terms, inputs first (the iteration order of
`itertools.chain(self.input_indices, self.output_indices)` up to set
formation, which does not affect the maximum taken below). -/
def Expression.allIndices (e : Expression) : List Idx :=
  (e.inputs.map InputTerm.indices).flatten ++ (e.outputs.map OutputTerm.indices).flatten

/-- `Expression.nindices`: one more than the maximum concrete id.  The
source computes `max(...) + 1` over a generator that skips `Ellipsis`;
`max` raises on an empty sequence, modelled by `none`. -/
def Expression.nindices (e : Expression) : Option Nat :=
  match e.allIndices.filterMap Idx.toNat? with
  | [] => none
  | x :: xs => some (xs.foldl max x + 1)

/-- `Expression.input_indices`: the set of entries of all input terms. -/
def Expression.input_indices (e : Expression) : Finset Idx :=
  ((e.inputs.map InputTerm.indices).flatten).toFinset

/-- `Expression.output_indices`: the set of entries of all output terms. -/
def Expression.output_indices (e : Expression) : Finset Idx :=
  ((e.outputs.map OutputTerm.indices).flatten).toFinset

/-- Characters removed by `re.sub(r'\s', '', subscripts)` (ASCII range). -/
def pySpace (c : Char) : Bool :=
  c = ' ' ∨ c = '\t' ∨ c = '\n' ∨ c = '\r' ∨ c = '\x0b' ∨ c = '\x0c'

/-- Python `str.split('->')`: split on non-overlapping occurrences of the
two-character separator, scanning left to right. -/
def splitArrow : List Char → List (List Char)
  | [] => [[]]
  | '-' :: '>' :: rest => [] :: splitArrow rest
  | c :: rest =>
      match splitArrow rest with
      | [] => [[c]]
      | p :: ps => (c :: p) :: ps

/-- Python `str.split(',')`. -/
def splitComma : List Char → List (List Char)
  | [] => [[]]
  | ',' :: rest => [] :: splitComma rest
  | c :: rest =>
      match splitComma rest with
      | [] => [[c]]
      | p :: ps => (c :: p) :: ps

/-- `mapping.setdefault(ch, len(mapping))` on an association list kept in
insertion order with distinct keys. -/
def setdefault (m : List (Char × Nat)) (c : Char) : Nat × List (Char × Nat) :=
  match m.lookup c with
  | some v => (v, m)
  | none => (m.length, m ++ [(c, m.length)])

/-- Body of `InputTerm.parse`: scan the characters, record `...` at most
once, reject parentheses, map other characters through the symbol table. -/
def parseInputGo : List Char → List (Char × Nat) → Bool → Option (List Idx × List (Char × Nat))
  | [], m, _ => some ([], m)
  | '.' :: '.' :: '.' :: rest, m, fe =>
      if fe then none
      else
        match parseInputGo rest m true with
        | none => none
        | some (is, m') => some (Idx.ell :: is, m')
  | c :: rest, m, fe =>
      if c = '(' ∨ c = ')' then none
      else
        match setdefault m c with
        | (v, m') =>
          match parseInputGo rest m' fe with
          | none => none
          | some (is, m'') => some (Idx.id v :: is, m'')

/-- `InputTerm.parse`. -/
def InputTerm.parseTerm (s : List Char) (m : List (Char × Nat)) :
    Option (InputTerm × List (Char × Nat)) :=
  match parseInputGo s m false with
  | none => none
  | some (is, m') => some (⟨is, String.mk s⟩, m')

/-- Body of `OutputTerm.parse`: additionally track an open fusing group
(`start`) and the number of indices emitted so far (`len(indices)`). -/
def parseOutputGo : List Char → List (Char × Nat) → Bool → Option Nat → Nat →
    Option (List Idx × List (Nat × Nat) × List (Char × Nat))
  | [], m, _, start, _ =>
      match start with
      | some _ => none
      | none => some ([], [], m)
  | '.' :: '.' :: '.' :: rest, m, fe, start, n =>
      if fe then none
      else
        match parseOutputGo rest m true start (n + 1) with
        | none => none
        | some (is, fs, m') => some (Idx.ell :: is, fs, m')
  | '(' :: rest, m, fe, start, n =>
      match start with
      | some _ => none
      | none => parseOutputGo rest m fe (some n) n
  | ')' :: rest, m, fe, start, n =>
      match start with
      | none => none
      | some s =>
          match parseOutputGo rest m fe none n with
          | none => none
          | some (is, fs, m') => some (is, (s, n) :: fs, m')
  | c :: rest, m, fe, start, n =>
      match setdefault m c with
      | (v, m') =>
        match parseOutputGo rest m' fe start (n + 1) with
        | none => none
        | some (is, fs, m'') => some (Idx.id v :: is, fs, m'')

/-- `OutputTerm.parse`. -/
def OutputTerm.parseTerm (s : List Char) (m : List (Char × Nat)) :
    Option (OutputTerm × List (Char × Nat)) :=
  match parseOutputGo s m false none 0 with
  | none => none
  | some (is, fs, m') => some (⟨is, fs, String.mk s⟩, m')

/-- Parse a comma-separated list of input terms, threading the symbol
table. -/
def parseInputs : List (List Char) → List (Char × Nat) → Option (List InputTerm × List (Char × Nat))
  | [], m => some ([], m)
  | s :: rest, m =>
      match InputTerm.parseTerm s m with
      | none => none
      | some (t, m') =>
          match parseInputs rest m' with
          | none => none
          | some (ts, m'') => some (t :: ts, m'')

/-- Parse a comma-separated list of output terms, threading the symbol
table. -/
def parseOutputs : List (List Char) → List (Char × Nat) → Option (List OutputTerm × List (Char × Nat))
  | [], m => some ([], m)
  | s :: rest, m =>
      match OutputTerm.parseTerm s m with
      | none => none
      | some (t, m') =>
          match parseOutputs rest m' with
          | none => none
          | some (ts, m'') => some (t :: ts, m'')

/-- `Expression.parse`: strip whitespace, split on `->` (exactly two
parts), parse comma-separated input and output terms sharing one symbol
table, and enforce the 52-symbol capacity of `string.ascii_letters`. -/
def parse (subscripts : String) : Option Expression :=
  let s := subscripts.data.filter (fun c => ¬ pySpace c)
  match splitArrow s with
  | [ins, outs] =>
      match parseInputs (splitComma ins) [] with
      | none => none
      | some (its, m1) =>
          match parseOutputs (splitComma outs) m1 with
          | none => none
          | some (ots, m2) =>
              if m2.length > 52 then none
              else some ⟨its, ots, String.mk s⟩
  | _ => none

/-- Loop of `InputTerm.match`: `i` is the number of output positions
produced so far, `c` the fresh-id counter (`nindices` in the source).
At an ellipsis, `count = (ndim - i) - (remaining entries)` computed over
the integers; a negative count is an arity error. -/
def matchGo (ndim : Nat) : List Idx → Nat → Nat → Option (List Idx × Nat)
  | [], i, c => if i = ndim then some ([], c) else none
  | Idx.ell :: rest, i, c =>
      if ((ndim : Int) - (i : Int) - (rest.length : Int)) < 0 then none
      else
        match matchGo ndim rest (i + ((ndim : Int) - (i : Int) - (rest.length : Int)).toNat)
                (c + ((ndim : Int) - (i : Int) - (rest.length : Int)).toNat) with
        | none => none
        | some (is, c') =>
            some ((List.range ((ndim : Int) - (i : Int) - (rest.length : Int)).toNat).map
                    (fun j => Idx.id (c + j)) ++ is, c')
  | Idx.id v :: rest, i, c =>
      match matchGo ndim rest (i + 1) c with
      | none => none
      | some (is, c') => some (Idx.id v :: is, c')

/-- `InputTerm.match`: returns the expanded term together with the
advanced fresh-id counter. -/
def InputTerm.matchTerm (t : InputTerm) (ndim : Nat) (c : Nat) : Option (InputTerm × Nat) :=
  match matchGo ndim t.indices 0 c with
  | none => none
  | some (is, c') => some (⟨is, t.source⟩, c')

/-- Match every input term against its rank, threading the shared
fresh-id counter (the `fresh` closure of `Expression.match`). -/
def matchInputsGo : List (InputTerm × Nat) → Nat → Option (List InputTerm × Nat)
  | [], c => some ([], c)
  | (t, r) :: rest, c =>
      match t.matchTerm r c with
      | none => none
      | some (t', c') =>
          match matchInputsGo rest c' with
          | none => none
          | some (ts, c'') => some (t' :: ts, c'')

/-- First stage of `Expression.match`: the operand-count check, the
`nindices` computation (which raises on an expression with no concrete
ids), the matching of all input terms, and the canonical ellipsis run
`list(range(self.nindices, nindices))`. -/
def Expression.matchPrep (e : Expression) (ndims : List Nat) :
    Option (List InputTerm × List Idx) :=
  if ndims.length ≠ e.inputs.length then none
  else
    match e.nindices with
    | none => none
    | some n0 =>
        match matchInputsGo (e.inputs.zip ndims) n0 with
        | none => none
        | some (ts, n1) =>
            some (ts, (List.range (n1 - n0)).map (fun j => Idx.id (n0 + j)))

/-- Loop of `OutputTerm.expand`: substitute the run for every ellipsis
entry, recording the position (in the original sequence) of the last
ellipsis seen, `-1` when there is none. -/
def expandGo (run : List Idx) : List Idx → Nat → Int → (List Idx × Int)
  | [], _, pos => ([], pos)
  | Idx.ell :: rest, i, _ =>
      match expandGo run rest (i + 1) (Int.ofNat i) with
      | (is, p) => (run ++ is, p)
  | Idx.id v :: rest, i, pos =>
      match expandGo run rest (i + 1) pos with
      | (is, p) => (Idx.id v :: is, p)

/-- `OutputTerm.expand`: fails when the run is non-empty but the term has
no ellipsis; otherwise shifts fusing boundaries after the ellipsis by
`len(run) - 1`. -/
def OutputTerm.expand (t : OutputTerm) (run : List Idx) : Option OutputTerm :=
  match expandGo run t.indices 0 (-1) with
  | (newindices, pos) =>
      if run ≠ [] ∧ pos < 0 then none
      else if pos < 0 then some ⟨newindices, t.fusing, t.source⟩
      else
        some ⟨newindices,
              t.fusing.map (fun p =>
                ((if (p.1 : Int) > pos then p.1 + run.length - 1 else p.1),
                 (if (p.2 : Int) > pos then p.2 + run.length - 1 else p.2))),
              t.source⟩

/-- Expand every output term with the canonical run (the list
comprehension of `Expression.match`, aborting at the first failure). -/
def expandAll (run : List Idx) : List OutputTerm → Option (List OutputTerm)
  | [] => some []
  | t :: rest =>
      match t.expand run, expandAll run rest with
      | some t', some ts => some (t' :: ts)
      | _, _ => none

/-- `Expression.match`. -/
def Expression.matchExpr (e : Expression) (ndims : List Nat) : Option Expression :=
  match e.matchPrep ndims with
  | none => none
  | some (ts, run) =>
      match expandAll run e.outputs with
      | none => none
      | some os => some ⟨ts, os, e.source⟩

/-- Validation stage of `parse_einsum` on a matched expression. -/
def validate_einsum (e : Expression) : Bool :=
  (e.outputs.length == 1) && decide (e.output_indices ⊆ e.input_indices)

/-- The accept/reject step of `parse_einsum` (return the expression
unchanged or raise). -/
def einsumValidate (e : Expression) : Option Expression :=
  if validate_einsum e then some e else none

/-- `parse_einsum`. -/
def parse_einsum (s : String) (ndims : List Nat) : Option Expression :=
  match (parse s).bind (fun e => e.matchExpr ndims) with
  | none => none
  | some e => einsumValidate e

/-- The set `output_indices - input_indices` enumerated as a
duplicate-free list: its length is the set's size, and for the
single-element sets popped by the source it is the one-element list, so
it models the `pop()` of `parse_einsvd`, `parse_einsumsvd` and
`split_einsumsvd` faithfully. -/
def Expression.newIndices (e : Expression) : List Idx :=
  (((e.outputs.map OutputTerm.indices).flatten).dedup).filter
    (fun x => decide (x ∉ e.input_indices))

/-- Validation stage of `parse_einsvd` on a matched expression: one
input, two outputs, no repeated input index, input indices a subset of
output indices, exactly one new index present in both outputs, both
outputs of length other than one, and
`len(output_indices) == len(outputs[0]) + len(outputs[1]) - 1`
(the arithmetic of the source is over the integers). -/
def validate_einsvd (e : Expression) : Bool :=
  match e.inputs, e.outputs with
  | [t], [o1, o2] =>
      decide t.indices.Nodup &&
      decide (e.input_indices ⊆ e.output_indices) &&
      (e.newIndices.length == 1) &&
      (match e.newIndices with
       | [x] => decide (x ∈ o1.indices) && decide (x ∈ o2.indices)
       | _ => false) &&
      (o1.indices.length != 1) && (o2.indices.length != 1) &&
      ((e.output_indices.card : Int) ==
        (o1.indices.length : Int) + (o2.indices.length : Int) - 1)
  | _, _ => false

/-- The accept/reject step of `parse_einsvd`. -/
def einsvdValidate (e : Expression) : Option Expression :=
  if validate_einsvd e then some e else none

/-- `parse_einsvd` (the single rank is wrapped as `[ndim]`). -/
def parse_einsvd (s : String) (ndim : Nat) : Option Expression :=
  match (parse s).bind (fun e => e.matchExpr [ndim]) with
  | none => none
  | some e => einsvdValidate e

/-- Validation stage of `parse_einsumsvd` on a matched expression: at
least one input, two outputs, exactly one new index present in both
outputs, both outputs of length other than one. -/
def validate_einsumsvd (e : Expression) : Bool :=
  match e.outputs with
  | [o1, o2] =>
      decide (1 ≤ e.inputs.length) &&
      (e.newIndices.length == 1) &&
      (match e.newIndices with
       | [x] => decide (x ∈ o1.indices) && decide (x ∈ o2.indices)
       | _ => false) &&
      (o1.indices.length != 1) && (o2.indices.length != 1)
  | _ => false

/-- The accept/reject step of `parse_einsumsvd`. -/
def einsumsvdValidate (e : Expression) : Option Expression :=
  if validate_einsumsvd e then some e else none

/-- `parse_einsumsvd`. -/
def parse_einsumsvd (s : String) (ndims : List Nat) : Option Expression :=
  match (parse s).bind (fun e => e.matchExpr ndims) with
  | none => none
  | some e => einsumsvdValidate e

/-- `split_einsumsvd`: pop the new index from the output-minus-input
set, build the intermediate index list by filtering it out of the
concatenated output terms (duplicates are kept as in the source), and
assemble the contraction and decomposition halves. -/
def split_einsumsvd (e : Expression) : Expression × Expression :=
  let newindex := e.newIndices.headI
  let intermediate :=
    ((e.outputs.map OutputTerm.indices).flatten).filter (fun i => i ≠ newindex)
  (⟨e.inputs, [⟨intermediate, [], ""⟩], e.source⟩,
   ⟨[⟨intermediate, ""⟩], e.outputs, e.source⟩)

/-- Loop of `OutputTerm.newshape`: `i` is the end of the previous fusing
group; slices clamp exactly as Python slices do. -/
def newshapeGo (shape : List Nat) : List (Nat × Nat) → Nat → List Nat
  | [], i => shape.drop i
  | (s, e) :: rest, i =>
      ((shape.drop i).take (s - i)) ++
        (((shape.drop s).take (e - s)).foldl (fun a b => a * b) 1) :: newshapeGo shape rest e

/-- `OutputTerm.newshape`: rejects an unexpanded ellipsis and a shape
whose length differs from the term's index count. -/
def OutputTerm.newshape (t : OutputTerm) (shape : List Nat) : Option (List Nat) :=
  if Idx.ell ∈ t.indices then none
  else if shape.length ≠ t.indices.length then none
  else some (newshapeGo shape t.fusing 0)

/-- Resolved shape as the specification describes it: for each fusing
group in increasing order the axes between the previous group's end and
the group's start pass through unchanged, the axes inside the group are
replaced by their product, and the axes after the last group pass
through unchanged. -/
def specResolveShape (shape : List Nat) : List (Nat × Nat) → Nat → List Nat
  | [], prev => shape.drop prev
  | (s, e) :: rest, prev =>
      ((shape.drop prev).take (s - prev)) ++
        (((shape.drop s).take (e - s)).foldl (fun a b => a * b) 1) :: specResolveShape shape rest e

/-- Number of literal (non-ellipsis) entries of an index sequence. -/
def litCount (l : List Idx) : Nat := (l.filter (fun i => i ≠ Idx.ell)).length

/-- The distinct concrete ids referenced by any term of an expression. -/
def Expression.referencedIds (e : Expression) : Finset Nat :=
  (e.allIndices.filterMap Idx.toNat?).toFinset

/-! ### Lemmas about the matching loop -/

theorem matchGo_front (ndim : Nat) (pre : List Idx) (hpre : Idx.ell ∉ pre) :
    ∀ (rest : List Idx) (i c : Nat),
    matchGo ndim (pre ++ rest) i c =
      (matchGo ndim rest (i + pre.length) c).map (fun p => (pre ++ p.1, p.2)) := by
  induction pre with
  | nil =>
      intro rest i c
      cases h : matchGo ndim rest (i + List.length []) c <;>
        simp_all
  | cons a pre ih =>
      intro rest i c
      cases a with
      | ell => simp at hpre
      | id v =>
          have hpre' : Idx.ell ∉ pre := by simp at hpre; exact hpre
          simp only [List.cons_append, matchGo, List.append_eq]
          rw [ih hpre' rest (i + 1) c]
          have harith : i + 1 + pre.length = i + (pre.length + 1) := by omega
          rw [harith]
          cases h : matchGo ndim rest (i + (pre.length + 1)) c with
          | none => simp [h]
          | some p => simp [h]

theorem matchGo_all_literal (ndim : Nat) (l : List Idx) (hl : Idx.ell ∉ l) (i c : Nat) :
    matchGo ndim l i c = if i + l.length = ndim then some (l, c) else none := by
  have h := matchGo_front ndim l hl [] i c
  rw [List.append_nil] at h
  rw [h]
  by_cases hc : i + l.length = ndim <;> simp [matchGo, hc]

theorem matchGo_ell_step (ndim : Nat) (post : List Idx) (hpost : Idx.ell ∉ post)
    (i c : Nat) :
    matchGo ndim (Idx.ell :: post) i c =
      if i + post.length ≤ ndim
      then some ((List.range (ndim - (i + post.length))).map (fun j => Idx.id (c + j)) ++ post,
                 c + (ndim - (i + post.length)))
      else none := by
  by_cases hle : i + post.length ≤ ndim
  · have hneg : ¬ ((ndim : Int) - (i : Int) - (post.length : Int) < 0) := by omega
    have htn : ((ndim : Int) - (i : Int) - (post.length : Int)).toNat
        = ndim - (i + post.length) := by omega
    rw [matchGo, if_neg hneg, htn,
      matchGo_all_literal ndim post hpost (i + (ndim - (i + post.length)))
        (c + (ndim - (i + post.length)))]
    have harith : i + (ndim - (i + post.length)) + post.length = ndim := by omega
    simp [harith, hle]
  · have hneg : ((ndim : Int) - (i : Int) - (post.length : Int) < 0) := by omega
    rw [matchGo, if_pos hneg, if_neg hle]

theorem matchGo_one_ell (ndim : Nat) (pre post : List Idx)
    (hpre : Idx.ell ∉ pre) (hpost : Idx.ell ∉ post) (c : Nat) :
    matchGo ndim (pre ++ Idx.ell :: post) 0 c =
      if pre.length + post.length ≤ ndim
      then some (pre ++
            ((List.range (ndim - (pre.length + post.length))).map
              (fun j => Idx.id (c + j)) ++ post),
            c + (ndim - (pre.length + post.length)))
      else none := by
  rw [matchGo_front ndim pre hpre (Idx.ell :: post) 0 c,
    matchGo_ell_step ndim post hpost (0 + pre.length) c]
  have harith : 0 + pre.length + post.length = pre.length + post.length := by omega
  rw [harith]
  by_cases hle : pre.length + post.length ≤ ndim <;> simp [hle]

theorem litCount_cons_id (v : Nat) (l : List Idx) :
    litCount (Idx.id v :: l) = litCount l + 1 := by
  simp [litCount]

theorem litCount_cons_ell (l : List Idx) : litCount (Idx.ell :: l) = litCount l := by
  simp [litCount]

theorem litCount_no_ell (l : List Idx) (h : Idx.ell ∉ l) : litCount l = l.length := by
  induction l with
  | nil => rfl
  | cons a rest ih =>
      cases a with
      | ell => simp at h
      | id v =>
          have h' : Idx.ell ∉ rest := by simp at h; exact h
          rw [litCount_cons_id, ih h']
          simp

theorem matchGo_counter (ndim : Nat) :
    ∀ (l : List Idx) (i c : Nat) (is : List Idx) (c' : Nat),
    l.count Idx.ell ≤ 1 → matchGo ndim l i c = some (is, c') →
    c' = c + (if Idx.ell ∈ l then ndim - i - litCount l else 0) := by
  intro l
  induction l with
  | nil =>
      intro i c is c' _ h
      simp only [matchGo] at h
      by_cases hi : i = ndim
      · simp [hi] at h
        simp [h.2]
      · simp [hi] at h
  | cons a rest ih =>
      intro i c is c' hcount h
      cases a with
      | id v =>
          simp only [matchGo] at h
          cases hm : matchGo ndim rest (i + 1) c with
          | none => rw [hm] at h; simp at h
          | some p =>
              rw [hm] at h
              simp at h
              have hc : rest.count Idx.ell ≤ 1 := by
                rw [List.count_cons] at hcount
                simp at hcount
                omega
              have := ih (i + 1) c p.1 p.2 hc (by rw [hm])
              by_cases hall : Idx.ell ∈ rest
              · have hmem : Idx.ell ∈ Idx.id v :: rest := List.mem_cons_of_mem _ hall
                rw [if_pos hall] at this
                rw [if_pos hmem, litCount_cons_id]
                omega
              · have hmem : Idx.ell ∉ Idx.id v :: rest := by simp [hall]
                rw [if_neg hall] at this
                rw [if_neg hmem]
                omega
      | ell =>
          have hrest : Idx.ell ∉ rest := by
            rw [List.count_cons] at hcount
            simp at hcount
            exact List.count_eq_zero.mp (by omega)
          rw [matchGo_ell_step ndim rest hrest i c] at h
          by_cases hle : i + rest.length ≤ ndim
          · rw [if_pos hle] at h
            simp at h
            have hmem : Idx.ell ∈ Idx.ell :: rest := List.mem_cons_self _ _
            rw [if_pos hmem, litCount_cons_ell, litCount_no_ell rest hrest]
            omega
          · rw [if_neg hle] at h
            simp at h

theorem matchTerm_counter (t : InputTerm) (r c : Nat) (t' : InputTerm) (c' : Nat)
    (hcount : t.indices.count Idx.ell ≤ 1)
    (h : t.matchTerm r c = some (t', c')) :
    c' = c + (if Idx.ell ∈ t.indices then r - litCount t.indices else 0) := by
  unfold InputTerm.matchTerm at h
  cases hm : matchGo r t.indices 0 c with
  | none => rw [hm] at h; simp at h
  | some p =>
      rw [hm] at h
      simp at h
      have := matchGo_counter r t.indices 0 c p.1 p.2 hcount (by rw [hm])
      rw [← h.2]
      simpa using this

theorem matchInputsGo_counter :
    ∀ (ps : List (InputTerm × Nat)) (c : Nat) (ts : List InputTerm) (c' : Nat),
    (∀ p ∈ ps, p.1.indices.count Idx.ell ≤ 1) →
    matchInputsGo ps c = some (ts, c') →
    c' = c + (ps.map
      (fun p => if Idx.ell ∈ p.1.indices then p.2 - litCount p.1.indices else 0)).sum := by
  intro ps
  induction ps with
  | nil =>
      intro c ts c' _ h
      simp [matchInputsGo] at h
      simp [h.2]
  | cons p rest ih =>
      intro c ts c' hcount h
      obtain ⟨t, r⟩ := p
      simp only [matchInputsGo] at h
      split at h
      · simp at h
      next t1 c1 hm =>
        split at h
        · simp at h
        next ts2 c2 hrest =>
          simp at h
          have h1 := matchTerm_counter t r c t1 c1
            (hcount (t, r) (List.mem_cons_self _ _)) hm
          have h2 := ih c1 ts2 c2
            (fun p hp => hcount p (List.mem_cons_of_mem _ hp)) hrest
          rw [← h.2, h2, h1]
          simp [List.map_cons, List.sum_cons]
          omega

theorem expandGo_no_ell (run : List Idx) :
    ∀ (l : List Idx), Idx.ell ∉ l → ∀ (i : Nat) (pos : Int),
    expandGo run l i pos = (l, pos) := by
  intro l
  induction l with
  | nil => intro _ i pos; simp [expandGo]
  | cons a rest ih =>
      intro h i pos
      cases a with
      | ell => simp at h
      | id v =>
          have h' : Idx.ell ∉ rest := by simp at h; exact h
          simp [expandGo, ih h' (i + 1) pos]

theorem expand_none_of_no_ell (t : OutputTerm) (run : List Idx)
    (hrun : run ≠ []) (h : Idx.ell ∉ t.indices) :
    t.expand run = none := by
  unfold OutputTerm.expand
  rw [expandGo_no_ell run t.indices h 0 (-1)]
  simp [hrun]

theorem expandAll_none_of_mem (run : List Idx) :
    ∀ (l : List OutputTerm) (t : OutputTerm), t ∈ l → t.expand run = none →
    expandAll run l = none := by
  intro l
  induction l with
  | nil => intro t ht; simp at ht
  | cons a rest ih =>
      intro t ht hnone
      rcases List.mem_cons.mp ht with heq | hmem
      · subst heq
        simp [expandAll, hnone]
      · cases ha : a.expand run <;> simp [expandAll, ha, ih t hmem hnone]

theorem newshapeGo_eq_spec (shape : List Nat) :
    ∀ (fs : List (Nat × Nat)) (i : Nat),
    newshapeGo shape fs i = specResolveShape shape fs i := by
  intro fs
  induction fs with
  | nil => intro i; rfl
  | cons g rest ih =>
      intro i
      obtain ⟨s, e⟩ := g
      simp [newshapeGo, specResolveShape, ih]

/-! ### Claim theorems -/

/-- Claim C5 (confirmed): matching an input term that contains one ellipsis
against rank `r` produces a term of length exactly `r`, with the ellipsis
replaced by `r - k` fresh ids where `k` is the literal index count, and
fails whenever `r < k`; matching an ellipsis-free term succeeds exactly
when its index count equals `r`. -/
theorem C5_match_rank_exact (pre post : List Idx) (src : String) (r c : Nat)
    (hpre : Idx.ell ∉ pre) (hpost : Idx.ell ∉ post) :
    ((pre.length + post.length ≤ r →
        InputTerm.matchTerm ⟨pre ++ Idx.ell :: post, src⟩ r c =
          some (⟨pre ++ ((List.range (r - (pre.length + post.length))).map
                  (fun j => Idx.id (c + j)) ++ post), src⟩,
                c + (r - (pre.length + post.length))) ∧
        (pre ++ ((List.range (r - (pre.length + post.length))).map
            (fun j => Idx.id (c + j)) ++ post)).length = r) ∧
     (r < pre.length + post.length →
        InputTerm.matchTerm ⟨pre ++ Idx.ell :: post, src⟩ r c = none)) ∧
    (∀ l : List Idx, Idx.ell ∉ l →
        ((InputTerm.matchTerm ⟨l, src⟩ r c).isSome ↔ l.length = r)) := by
  refine ⟨⟨fun hle => ⟨?_, ?_⟩, fun hlt => ?_⟩, fun l hl => ?_⟩
  · unfold InputTerm.matchTerm
    rw [matchGo_one_ell r pre post hpre hpost c, if_pos hle]
  · simp
    omega
  · unfold InputTerm.matchTerm
    rw [matchGo_one_ell r pre post hpre hpost c, if_neg (by omega)]
  · unfold InputTerm.matchTerm
    rw [matchGo_all_literal r l hl 0 c]
    by_cases hc : l.length = r
    · simp [hc]
    · have : ¬ (0 + l.length = r) := by omega
      simp [this, hc]

/-- Witness for C5 at concrete inputs: term `i...` against rank 3 with
counter 2, term `i.j`-shaped list against rank 1, and ellipsis-free `ij`
against rank 2. -/
theorem C5_match_rank_exact_witness :
    InputTerm.matchTerm ⟨[Idx.id 0, Idx.ell], "i..."⟩ 3 2 =
      some (⟨[Idx.id 0, Idx.id 2, Idx.id 3], "i..."⟩, 4) ∧
    InputTerm.matchTerm ⟨[Idx.id 0, Idx.ell, Idx.id 1], "ab"⟩ 1 5 = none ∧
    (InputTerm.matchTerm ⟨[Idx.id 0, Idx.id 1], "ij"⟩ 2 7).isSome := by
  refine ⟨?_, ?_, ?_⟩
  · exact ((C5_match_rank_exact [Idx.id 0] [] "i..." 3 2 (by decide)
      (by decide)).1.1 (by decide)).1
  · exact (C5_match_rank_exact [Idx.id 0] [Idx.id 1] "ab" 1 5 (by decide)
      (by decide)).1.2 (by decide)
  · exact ((C5_match_rank_exact [] [] "ij" 2 7 (by decide)
      (by decide)).2 [Idx.id 0, Idx.id 1] (by decide)).mpr (by decide)

/-- Claim C1 counterexample: for `"i...,j...->i...,j..."` with ranks
`[3, 2]` the canonical run substituted into the outputs has length 3
(the total of the per-term broadcast runs 2 and 1), not the claimed
maximum 2, so each output expands to length 4 rather than 3. -/
theorem C1_counterexample :
    ((parse "i...,j...->i...,j...").bind (fun e => e.matchPrep [3, 2])).map
        (fun p => p.2.length) = some 3 ∧
    ((parse "i...,j...->i...,j...").bind (fun e => e.matchExpr [3, 2])).map
        (fun e => e.outputs.map (fun t => t.indices.length)) = some [4, 4] ∧
    (3 : Nat) ≠ max 2 1 := by
  refine ⟨by decide, by decide, by decide⟩

/-- Claim C1 as amended: the canonical ellipsis run substituted into the
output terms is the block of all freshly allocated ids, whose length is
the SUM over the input terms (each containing at most one ellipsis, as
every parsed term does) of their individual broadcast-run lengths
`rank - literal count`. -/
theorem C1_run_is_total (e : Expression) (ndims : List Nat)
    (ts : List InputTerm) (run : List Idx)
    (h1 : ∀ t ∈ e.inputs, t.indices.count Idx.ell ≤ 1)
    (h : e.matchPrep ndims = some (ts, run)) :
    run.length = ((e.inputs.zip ndims).map
      (fun p => if Idx.ell ∈ p.1.indices then p.2 - litCount p.1.indices else 0)).sum := by
  unfold Expression.matchPrep at h
  split at h
  · simp at h
  · split at h
    · simp at h
    next n0 hn =>
      split at h
      · simp at h
      next ts1 n1 hm =>
        simp at h
        have hsum := matchInputsGo_counter (e.inputs.zip ndims) n0 ts1 n1
          (fun p hp => h1 p.1 (List.of_mem_zip hp).1) hm
        rw [← h.2]
        simp only [List.length_map, List.length_range]
        omega

/-- Witness for C1 at the counterexample input: the run `[2, 3, 4]` of
length 3 equals the sum of the broadcast-run lengths 2 and 1. -/
theorem C1_run_is_total_witness :
    ([Idx.id 2, Idx.id 3, Idx.id 4] : List Idx).length =
      ((([⟨[Idx.id 0, Idx.ell], "i..."⟩,
          ⟨[Idx.id 1, Idx.ell], "j..."⟩] : List InputTerm).zip [3, 2]).map
        (fun p => if Idx.ell ∈ p.1.indices then p.2 - litCount p.1.indices else 0)).sum :=
  C1_run_is_total
    ⟨[⟨[Idx.id 0, Idx.ell], "i..."⟩, ⟨[Idx.id 1, Idx.ell], "j..."⟩],
     [⟨[Idx.id 0, Idx.ell], [], "i..."⟩, ⟨[Idx.id 1, Idx.ell], [], "j..."⟩],
     "i...,j...->i...,j..."⟩
    [3, 2]
    [⟨[Idx.id 0, Idx.id 2, Idx.id 3], "i..."⟩, ⟨[Idx.id 1, Idx.id 4], "j..."⟩]
    [Idx.id 2, Idx.id 3, Idx.id 4]
    (by decide) (by decide)

/-- Claim C2 counterexample: for `"i...->i"` with rank 2 the matching
stage produces the non-empty run `[1]`, and `match` fails because the
output term has no ellipsis — it is an error at this stage. -/
theorem C2_counterexample :
    ((parse "i...->i").bind (fun e => e.matchPrep [2])).map (fun p => p.2) =
      some [Idx.id 1] ∧
    (parse "i...->i").bind (fun e => e.matchExpr [2]) = none := by
  refine ⟨by decide, by decide⟩

/-- Claim C2 as amended: whenever the matching stage produces a
non-empty broadcast run and some output term contains no ellipsis,
`match` fails (with the "expect ellipsis in output subscripts" error)
instead of succeeding. -/
theorem C2_no_output_ellipsis_fails (e : Expression) (ndims : List Nat)
    (ts : List InputTerm) (run : List Idx) (t : OutputTerm)
    (hp : e.matchPrep ndims = some (ts, run)) (hrun : run ≠ [])
    (ht : t ∈ e.outputs) (hnoell : Idx.ell ∉ t.indices) :
    e.matchExpr ndims = none := by
  simp only [Expression.matchExpr, hp]
  rw [expandAll_none_of_mem run e.outputs t ht
    (expand_none_of_no_ell t run hrun hnoell)]

/-- Witness for C2 at the counterexample input. -/
theorem C2_no_output_ellipsis_fails_witness :
    Expression.matchExpr
      ⟨[⟨[Idx.id 0, Idx.ell], "i..."⟩], [⟨[Idx.id 0], [], "i"⟩], "i...->i"⟩ [2] = none :=
  C2_no_output_ellipsis_fails
    ⟨[⟨[Idx.id 0, Idx.ell], "i..."⟩], [⟨[Idx.id 0], [], "i"⟩], "i...->i"⟩
    [2] [⟨[Idx.id 0, Idx.id 1], "i..."⟩] [Idx.id 1] ⟨[Idx.id 0], [], "i"⟩
    (by decide) (by decide) (by decide) (by decide)

/-- Claim C3 counterexample: `"ij->ija,ja"` with rank 2 is a validated
einsumsvd expression in which `j` occurs in both output terms; the
intermediate term built by `split_einsumsvd` is `[i, j, j]` — the
duplicated index appears twice, not once. -/
theorem C3_counterexample :
    (parse_einsumsvd "ij->ija,ja" [2]).map
        (fun e => (split_einsumsvd e).1.outputs.map OutputTerm.indices) =
      some [[Idx.id 0, Idx.id 1, Idx.id 1]] ∧
    ([Idx.id 0, Idx.id 1, Idx.id 1] : List Idx).count (Idx.id 1) = 2 := by
  refine ⟨by decide, by decide⟩

/-- Claim C3 as amended: for an expression whose output-minus-input set
is the single new index `x`, `split_einsumsvd` builds the intermediate
term as the ordered concatenation over both output terms of every index
except `x`, KEEPING duplicates; the contraction half keeps the original
inputs with the intermediate term as single output and no fusing, and
the decomposition half has the intermediate term as single input and
keeps the original outputs with their fusing groups. -/
theorem C3_split_structure (e : Expression) (x : Idx)
    (hx : e.newIndices = [x]) :
    split_einsumsvd e =
      (⟨e.inputs,
        [⟨((e.outputs.map OutputTerm.indices).flatten).filter (fun i => i ≠ x), [], ""⟩],
        e.source⟩,
       ⟨[⟨((e.outputs.map OutputTerm.indices).flatten).filter (fun i => i ≠ x), ""⟩],
        e.outputs, e.source⟩) := by
  unfold split_einsumsvd
  rw [hx]
  rfl

/-- Witness for C3 at the counterexample input. -/
theorem C3_split_structure_witness :
    split_einsumsvd
      ⟨[⟨[Idx.id 0, Idx.id 1], "ij"⟩],
       [⟨[Idx.id 0, Idx.id 1, Idx.id 2], [], "ija"⟩, ⟨[Idx.id 1, Idx.id 2], [], "ja"⟩],
       "ij->ija,ja"⟩ =
      (⟨[⟨[Idx.id 0, Idx.id 1], "ij"⟩],
        [⟨[Idx.id 0, Idx.id 1, Idx.id 1], [], ""⟩], "ij->ija,ja"⟩,
       ⟨[⟨[Idx.id 0, Idx.id 1, Idx.id 1], ""⟩],
        [⟨[Idx.id 0, Idx.id 1, Idx.id 2], [], "ija"⟩, ⟨[Idx.id 1, Idx.id 2], [], "ja"⟩],
        "ij->ija,ja"⟩) :=
  C3_split_structure
    ⟨[⟨[Idx.id 0, Idx.id 1], "ij"⟩],
     [⟨[Idx.id 0, Idx.id 1, Idx.id 2], [], "ija"⟩, ⟨[Idx.id 1, Idx.id 2], [], "ja"⟩],
     "ij->ija,ja"⟩
    (Idx.id 2) (by decide)

theorem mem_newIndices (e : Expression) (x : Idx) :
    x ∈ e.newIndices ↔ x ∈ e.output_indices \ e.input_indices := by
  simp [Expression.newIndices, Expression.output_indices, List.mem_filter,
    List.mem_dedup, Finset.mem_sdiff, List.mem_toFinset]

theorem newIndices_nodup (e : Expression) : e.newIndices.Nodup :=
  (List.nodup_dedup _).filter _

theorem newIndices_length (e : Expression) :
    e.newIndices.length = (e.output_indices \ e.input_indices).card := by
  rw [← List.toFinset_card_of_nodup (newIndices_nodup e)]
  congr 1
  ext x
  simp [mem_newIndices]

/-- Claim C4 (checked at the failing input): the decomposition half that
`split_einsumsvd` produces for the matched, validated expression of
`"ij,jk->ia,ka"` with ranks `[2, 2]` references only 3 distinct ids (the
contracted id 1 vanishes) yet its `nindices` is 4, so ids are not dense
and `nindices` exceeds the number of distinct referenced ids — the
discrepancy the source's own TODO comment records. -/
theorem C4_split_breaks_density :
    (parse_einsumsvd "ij,jk->ia,ka" [2, 2]).map
        (fun e => ((split_einsumsvd e).2.nindices,
                   (split_einsumsvd e).2.referencedIds.card)) =
      some (some 4, 3) ∧ (4 : Nat) ≠ 3 := by
  refine ⟨by decide, by decide⟩

theorem validate_einsvd_shape (e : Expression) (h : validate_einsvd e = true) :
    e.inputs.length = 1 ∧ e.outputs.length = 2 ∧
    (∀ t ∈ e.inputs, t.indices.Nodup) ∧
    e.input_indices ⊆ e.output_indices ∧
    e.newIndices.length = 1 ∧
    (∀ x ∈ e.newIndices, ∀ t ∈ e.outputs, x ∈ t.indices) ∧
    (∀ t ∈ e.outputs, t.indices.length ≠ 1) ∧
    e.output_indices.card + 1 = (e.outputs.map (fun t => t.indices.length)).sum := by
  unfold validate_einsvd at h
  split at h
  case _ t o1 o2 hin hout =>
    simp only [Bool.and_eq_true, decide_eq_true_eq, beq_iff_eq, bne_iff_ne] at h
    obtain ⟨⟨⟨⟨⟨⟨hnodup, hsub⟩, hlen1⟩, hmatch⟩, hne1⟩, hne2⟩, hcard⟩ := h
    cases hni : e.newIndices with
    | nil => rw [hni] at hlen1; simp at hlen1
    | cons x rest =>
        cases rest with
        | cons y rest2 => rw [hni] at hlen1; simp at hlen1
        | nil =>
            rw [hni] at hmatch
            simp only [Bool.and_eq_true, decide_eq_true_eq] at hmatch
            refine ⟨by simp [hin], by simp [hout], ?_, hsub, by simp [hni], ?_, ?_, ?_⟩
            · intro t' ht'
              simp [hin] at ht'
              rw [ht']
              exact hnodup
            · intro z hz t' ht'
              simp [hni] at hz
              subst hz
              simp [hout] at ht'
              rcases ht' with h1 | h2
              · rw [h1]; exact hmatch.1
              · rw [h2]; exact hmatch.2
            · intro t' ht'
              simp [hout] at ht'
              rcases ht' with h1 | h2
              · rw [h1]; exact hne1
              · rw [h2]; exact hne2
            · rw [hout]
              simp only [List.map_cons, List.map_nil, List.sum_cons, List.sum_nil]
              omega
  case _ => simp at h

theorem validate_einsumsvd_shape (e : Expression) (h : validate_einsumsvd e = true) :
    1 ≤ e.inputs.length ∧ e.outputs.length = 2 ∧
    e.newIndices.length = 1 ∧
    (∀ x ∈ e.newIndices, ∀ t ∈ e.outputs, x ∈ t.indices) ∧
    (∀ t ∈ e.outputs, t.indices.length ≠ 1) := by
  unfold validate_einsumsvd at h
  split at h
  case _ o1 o2 hout =>
    simp only [Bool.and_eq_true, decide_eq_true_eq, beq_iff_eq, bne_iff_ne] at h
    obtain ⟨⟨⟨⟨hlen, hlen1⟩, hmatch⟩, hne1⟩, hne2⟩ := h
    cases hni : e.newIndices with
    | nil => rw [hni] at hlen1; simp at hlen1
    | cons x rest =>
        cases rest with
        | cons y rest2 => rw [hni] at hlen1; simp at hlen1
        | nil =>
            rw [hni] at hmatch
            simp only [Bool.and_eq_true, decide_eq_true_eq] at hmatch
            refine ⟨hlen, by simp [hout], by simp [hni], ?_, ?_⟩
            · intro z hz t' ht'
              simp [hni] at hz
              subst hz
              simp [hout] at ht'
              rcases ht' with h1 | h2
              · rw [h1]; exact hmatch.1
              · rw [h2]; exact hmatch.2
            · intro t' ht'
              simp [hout] at ht'
              rcases ht' with h1 | h2
              · rw [h1]; exact hne1
              · rw [h2]; exact hne2
  case _ => simp at h

/-- Claim C6 counterexample: the matched expression of `"ij->iaa,ja"`
with rank 2 satisfies every decomposition-family rule of the claim — one
input, two outputs, no repeated input index, input indices preserved,
exactly one new index, present in both outputs, both outputs at least
two-dimensional, and no index other than the new one repeated across the
two outputs combined — yet `validate_einsvd` rejects it (the new index
occurs three times, which the code's counting check forbids). -/
theorem C6_counterexample :
    ((parse "ij->iaa,ja").bind (fun e => e.matchExpr [2])).map validate_einsvd =
      some false ∧
    ((parse "ij->iaa,ja").bind (fun e => e.matchExpr [2])).map (fun e =>
      decide (e.inputs.length = 1) && decide (e.outputs.length = 2) &&
      e.inputs.all (fun t => decide t.indices.Nodup) &&
      decide (e.input_indices ⊆ e.output_indices) &&
      decide (e.newIndices.length = 1) &&
      e.newIndices.all (fun x => e.outputs.all (fun t => decide (x ∈ t.indices))) &&
      e.outputs.all (fun t => decide (2 ≤ t.indices.length)) &&
      ((e.outputs.map OutputTerm.indices).flatten).all (fun x =>
        decide (x ∉ e.input_indices) ||
        decide (((e.outputs.map OutputTerm.indices).flatten).count x ≤ 1))) =
      some true := by
  refine ⟨by decide, by decide⟩

/-- Claim C6 as amended: `validate_einsvd` accepts a matched expression
exactly when it has one input term and two output terms, a
duplicate-free input term, input indices contained in the output
indices, exactly one new index which occurs in both output terms, no
output term of length one, and — stronger than "only the new index may
repeat" — the combined length of the two output terms exceeding the
number of distinct output indices by exactly one, so the new index must
occur exactly once in each output and no other index may repeat at all;
an accepted expression is returned unchanged. -/
theorem C6_validate_characterisation (e : Expression) :
    (validate_einsvd e = true ↔
      (e.inputs.length = 1 ∧ e.outputs.length = 2 ∧
       (∀ t ∈ e.inputs, t.indices.Nodup) ∧
       e.input_indices ⊆ e.output_indices ∧
       (e.output_indices \ e.input_indices).card = 1 ∧
       (∀ x ∈ e.output_indices \ e.input_indices, ∀ t ∈ e.outputs, x ∈ t.indices) ∧
       (∀ t ∈ e.outputs, t.indices.length ≠ 1) ∧
       e.output_indices.card + 1 = (e.outputs.map (fun t => t.indices.length)).sum)) ∧
    (validate_einsvd e = true → einsvdValidate e = some e) := by
  constructor
  · constructor
    · intro h
      obtain ⟨h1, h2, h3, h4, h5, h6, h7, h8⟩ := validate_einsvd_shape e h
      refine ⟨h1, h2, h3, h4, ?_, ?_, h7, h8⟩
      · rw [← newIndices_length]; exact h5
      · intro x hx
        exact h6 x ((mem_newIndices e x).mpr hx)
    · rintro ⟨h1, h2, h3, h4, h5, h6, h7, h8⟩
      obtain ⟨t, hin⟩ := List.length_eq_one.mp h1
      obtain ⟨o1, o2, hout⟩ := List.length_eq_two.mp h2
      have h5' : e.newIndices.length = 1 := by rw [newIndices_length]; exact h5
      obtain ⟨x, hni⟩ := List.length_eq_one.mp h5'
      have hxmem : x ∈ e.output_indices \ e.input_indices :=
        (mem_newIndices e x).mp (by rw [hni]; exact List.mem_singleton_self x)
      have hsum : e.output_indices.card + 1 =
          o1.indices.length + o2.indices.length := by
        rw [hout] at h8
        simpa using h8
      unfold validate_einsvd
      rw [hin, hout]
      simp only [hni, Bool.and_eq_true, decide_eq_true_eq, beq_iff_eq, bne_iff_ne]
      refine ⟨⟨⟨⟨⟨⟨?_, h4⟩, by simp⟩, ?_⟩, ?_⟩, ?_⟩, ?_⟩
      · exact h3 t (by rw [hin]; exact List.mem_singleton_self t)
      · exact ⟨h6 x hxmem o1 (by rw [hout]; simp),
               h6 x hxmem o2 (by rw [hout]; simp)⟩
      · exact h7 o1 (by rw [hout]; simp)
      · exact h7 o2 (by rw [hout]; simp)
      · omega
  · intro h
    simp [einsvdValidate, h]

/-- Witness for C6 at a concrete accepted expression (matched
`"ij->ia,ja"`): validation accepts it and returns it unchanged. -/
theorem C6_validate_characterisation_witness :
    einsvdValidate
      ⟨[⟨[Idx.id 0, Idx.id 1], "ij"⟩],
       [⟨[Idx.id 0, Idx.id 2], [], "ia"⟩, ⟨[Idx.id 1, Idx.id 2], [], "ja"⟩],
       "ij->ia,ja"⟩ =
      some ⟨[⟨[Idx.id 0, Idx.id 1], "ij"⟩],
            [⟨[Idx.id 0, Idx.id 2], [], "ia"⟩, ⟨[Idx.id 1, Idx.id 2], [], "ja"⟩],
            "ij->ia,ja"⟩ :=
  (C6_validate_characterisation
    ⟨[⟨[Idx.id 0, Idx.id 1], "ij"⟩],
     [⟨[Idx.id 0, Idx.id 2], [], "ia"⟩, ⟨[Idx.id 1, Idx.id 2], [], "ja"⟩],
     "ij->ia,ja"⟩).2 (by decide)

/-- Claim C7 (confirmed): both decomposition-family validators accept
only expressions whose output-minus-input index set has exactly one
element, with that new index present in every (both) output term(s) and
every output term at least two-dimensional; and the fused family indeed
permits an index repeated across different input terms, witnessed by the
accepted matched expression of `"ij,jk->ia,ka"` in which id 1 (`j`)
occurs in two input terms. -/
theorem C7_new_index_rules (e : Expression) :
    ((validate_einsvd e = true →
        (e.output_indices \ e.input_indices).card = 1 ∧
        (∀ x ∈ e.output_indices \ e.input_indices, ∀ t ∈ e.outputs, x ∈ t.indices) ∧
        (∀ t ∈ e.outputs, 2 ≤ t.indices.length)) ∧
     (validate_einsumsvd e = true →
        (e.output_indices \ e.input_indices).card = 1 ∧
        (∀ x ∈ e.output_indices \ e.input_indices, ∀ t ∈ e.outputs, x ∈ t.indices) ∧
        (∀ t ∈ e.outputs, 2 ≤ t.indices.length))) ∧
    (validate_einsumsvd
        ⟨[⟨[Idx.id 0, Idx.id 1], "ij"⟩, ⟨[Idx.id 1, Idx.id 2], "jk"⟩],
         [⟨[Idx.id 0, Idx.id 3], [], "ia"⟩, ⟨[Idx.id 2, Idx.id 3], [], "ka"⟩],
         "ij,jk->ia,ka"⟩ = true ∧
     (([⟨[Idx.id 0, Idx.id 1], "ij"⟩, ⟨[Idx.id 1, Idx.id 2], "jk"⟩] :
        List InputTerm).filter (fun t => t.indices.contains (Idx.id 1))).length = 2) := by
  refine ⟨⟨?_, ?_⟩, by decide, by decide⟩
  · intro h
    obtain ⟨_, _, _, _, h5, h6, h7, _⟩ := validate_einsvd_shape e h
    have hcard : (e.output_indices \ e.input_indices).card = 1 := by
      rw [← newIndices_length]; exact h5
    obtain ⟨x, hni⟩ := List.length_eq_one.mp h5
    refine ⟨hcard, ?_, ?_⟩
    · intro z hz
      exact h6 z ((mem_newIndices e z).mpr hz)
    · intro t' ht'
      have hx : x ∈ t'.indices := h6 x (by rw [hni]; exact List.mem_singleton_self x) t' ht'
      have hne := h7 t' ht'
      have hpos : 1 ≤ t'.indices.length := List.length_pos.mpr (by
        intro hemp
        rw [hemp] at hx
        simp at hx)
      omega
  · intro h
    obtain ⟨_, _, h5, h6, h7⟩ := validate_einsumsvd_shape e h
    have hcard : (e.output_indices \ e.input_indices).card = 1 := by
      rw [← newIndices_length]; exact h5
    obtain ⟨x, hni⟩ := List.length_eq_one.mp h5
    refine ⟨hcard, ?_, ?_⟩
    · intro z hz
      exact h6 z ((mem_newIndices e z).mpr hz)
    · intro t' ht'
      have hx : x ∈ t'.indices := h6 x (by rw [hni]; exact List.mem_singleton_self x) t' ht'
      have hne := h7 t' ht'
      have hpos : 1 ≤ t'.indices.length := List.length_pos.mpr (by
        intro hemp
        rw [hemp] at hx
        simp at hx)
      omega

/-- Witness for C7: the rules instantiated at the accepted matched
expression of `"ij->ia,ja"`, and the fused-family acceptance of the
cross-repeated `"ij,jk->ia,ka"` expression. -/
theorem C7_new_index_rules_witness :
    (Expression.output_indices
        ⟨[⟨[Idx.id 0, Idx.id 1], "ij"⟩],
         [⟨[Idx.id 0, Idx.id 2], [], "ia"⟩, ⟨[Idx.id 1, Idx.id 2], [], "ja"⟩],
         "ij->ia,ja"⟩ \
      Expression.input_indices
        ⟨[⟨[Idx.id 0, Idx.id 1], "ij"⟩],
         [⟨[Idx.id 0, Idx.id 2], [], "ia"⟩, ⟨[Idx.id 1, Idx.id 2], [], "ja"⟩],
         "ij->ia,ja"⟩).card = 1 ∧
    validate_einsumsvd
      ⟨[⟨[Idx.id 0, Idx.id 1], "ij"⟩, ⟨[Idx.id 1, Idx.id 2], "jk"⟩],
       [⟨[Idx.id 0, Idx.id 3], [], "ia"⟩, ⟨[Idx.id 2, Idx.id 3], [], "ka"⟩],
       "ij,jk->ia,ka"⟩ = true :=
  ⟨((C7_new_index_rules
      ⟨[⟨[Idx.id 0, Idx.id 1], "ij"⟩],
       [⟨[Idx.id 0, Idx.id 2], [], "ia"⟩, ⟨[Idx.id 1, Idx.id 2], [], "ja"⟩],
       "ij->ia,ja"⟩).1.1 (by decide)).1,
   (C7_new_index_rules
      ⟨[⟨[Idx.id 0, Idx.id 1], "ij"⟩],
       [⟨[Idx.id 0, Idx.id 2], [], "ia"⟩, ⟨[Idx.id 1, Idx.id 2], [], "ja"⟩],
       "ij->ia,ja"⟩).2.1⟩

/-- Claim C8 (confirmed): einsum validation accepts a matched expression
exactly when it has exactly one output term and every output index
occurs in some input term — an accepted expression is returned
unchanged — and the diagonal extraction `"ii->i"` (repeated index inside
one input term) is accepted. -/
theorem C8_einsum_validation :
    (∀ e : Expression, validate_einsum e = true ↔
        (e.outputs.length = 1 ∧ e.output_indices ⊆ e.input_indices)) ∧
    (∀ e : Expression, validate_einsum e = true → einsumValidate e = some e) ∧
    parse_einsum "ii->i" [2] =
      some ⟨[⟨[Idx.id 0, Idx.id 0], "ii"⟩], [⟨[Idx.id 0], [], "i"⟩], "ii->i"⟩ := by
  refine ⟨?_, ?_, by decide⟩
  · intro e
    unfold validate_einsum
    simp [Bool.and_eq_true, decide_eq_true_eq, beq_iff_eq]
  · intro e h
    simp [einsumValidate, h]

/-- Claim C9 (confirmed): for an ellipsis-free output term, `newshape`
on a shape of matching length is exactly the specification's resolution
(pass axes outside fusing groups through, replace each group's axes by
their product, groups in increasing order), the empty fusing list gives
the identity reshape, and a length mismatch fails. -/
theorem C9_newshape_resolution (t : OutputTerm) (shape : List Nat)
    (hell : Idx.ell ∉ t.indices) :
    (shape.length = t.indices.length →
        t.newshape shape = some (specResolveShape shape t.fusing 0)) ∧
    (shape.length ≠ t.indices.length → t.newshape shape = none) ∧
    (t.fusing = [] → shape.length = t.indices.length →
        t.newshape shape = some shape) := by
  refine ⟨fun hlen => ?_, fun hlen => ?_, fun hf hlen => ?_⟩
  · unfold OutputTerm.newshape
    rw [if_neg hell, if_neg (by omega), newshapeGo_eq_spec]
  · unfold OutputTerm.newshape
    rw [if_neg hell, if_pos hlen]
  · unfold OutputTerm.newshape
    rw [if_neg hell, if_neg (by omega), hf]
    simp [newshapeGo]

/-- Witness for C9 at concrete shapes: fusing `(ij)k` over `[2, 3, 4]`,
a mismatched shape, and the empty-fusing identity. -/
theorem C9_newshape_resolution_witness :
    OutputTerm.newshape ⟨[Idx.id 0, Idx.id 1, Idx.id 2], [(0, 2)], ""⟩ [2, 3, 4] =
      some (specResolveShape [2, 3, 4] [(0, 2)] 0) ∧
    OutputTerm.newshape ⟨[Idx.id 0, Idx.id 1, Idx.id 2], [(0, 2)], ""⟩ [2, 3] = none ∧
    OutputTerm.newshape ⟨[Idx.id 0, Idx.id 1], [], ""⟩ [5, 6] = some [5, 6] :=
  ⟨(C9_newshape_resolution ⟨[Idx.id 0, Idx.id 1, Idx.id 2], [(0, 2)], ""⟩ [2, 3, 4]
      (by decide)).1 (by decide),
   (C9_newshape_resolution ⟨[Idx.id 0, Idx.id 1, Idx.id 2], [(0, 2)], ""⟩ [2, 3]
      (by decide)).2.1 (by decide),
   (C9_newshape_resolution ⟨[Idx.id 0, Idx.id 1], [], ""⟩ [5, 6]
      (by decide)).2.2 rfl (by decide)⟩

/-- Claim C10 (confirmed): an expression that references no concrete id
— such as the successfully parsed `"->"` — has an undefined `nindices`
(the source's `max` over an empty sequence raises), and `match` on it
fails for every rank list, including `[0]` of the correct length, so
`match` is not total over successfully parsed expressions. -/
theorem C10_match_not_total (e : Expression) (ndims : List Nat)
    (hids : e.allIndices.filterMap Idx.toNat? = []) :
    e.nindices = none ∧ e.matchExpr ndims = none ∧
    parse "->" = some ⟨[⟨[], ""⟩], [⟨[], [], ""⟩], "->"⟩ := by
  have hn : e.nindices = none := by
    unfold Expression.nindices
    rw [hids]
  refine ⟨hn, ?_, by decide⟩
  unfold Expression.matchExpr Expression.matchPrep
  rw [hn]
  by_cases hlen : ndims.length ≠ e.inputs.length
  · simp [hlen]
  · simp [hlen]

/-- Witness for C10 at the parsed `"->"` expression with the
correct-length rank list `[0]`. -/
theorem C10_match_not_total_witness :
    Expression.nindices ⟨[⟨[], ""⟩], [⟨[], [], ""⟩], "->"⟩ = none ∧
    Expression.matchExpr ⟨[⟨[], ""⟩], [⟨[], [], ""⟩], "->"⟩ [0] = none :=
  ⟨(C10_match_not_total ⟨[⟨[], ""⟩], [⟨[], [], ""⟩], "->"⟩ [0] (by decide)).1,
   (C10_match_not_total ⟨[⟨[], ""⟩], [⟨[], [], ""⟩], "->"⟩ [0] (by decide)).2.1⟩

/-- Witness for C8: the characterisation and the unchanged return
instantiated at the matched diagonal expression `"ii->i"`. -/
theorem C8_einsum_validation_witness :
    validate_einsum
      ⟨[⟨[Idx.id 0, Idx.id 0], "ii"⟩], [⟨[Idx.id 0], [], "i"⟩], "ii->i"⟩ = true ∧
    einsumValidate
      ⟨[⟨[Idx.id 0, Idx.id 0], "ii"⟩], [⟨[Idx.id 0], [], "i"⟩], "ii->i"⟩ =
      some ⟨[⟨[Idx.id 0, Idx.id 0], "ii"⟩], [⟨[Idx.id 0], [], "i"⟩], "ii->i"⟩ :=
  ⟨(C8_einsum_validation.1
      ⟨[⟨[Idx.id 0, Idx.id 0], "ii"⟩], [⟨[Idx.id 0], [], "i"⟩], "ii->i"⟩).mpr (by decide),
   C8_einsum_validation.2.1
      ⟨[⟨[Idx.id 0, Idx.id 0], "ii"⟩], [⟨[Idx.id 0], [], "i"⟩], "ii->i"⟩
      ((C8_einsum_validation.1
        ⟨[⟨[Idx.id 0, Idx.id 0], "ii"⟩], [⟨[Idx.id 0], [], "i"⟩], "ii->i"⟩).mpr (by decide))⟩

end Einstr
